import Mathlib

/-!
Shallow embedding of the MIDI decoding core of `midi_visualizer.jsx`
(the Omino MIDI file reader plus the BPM-map builder of MidiNoteVisualizerAE).

The file's raw bytes are modelled as a `List ℕ` of byte values; ExtendScript's
`charCodeAt` on an out-of-range index yields `NaN`, which under the bitwise
operations the reader applies behaves like the byte `0`, so `byteAt` defaults
out-of-range reads to `0`.  JavaScript numbers are modelled as `ℚ` where the
code computes times and BPM values, and as `ℕ` where it manipulates byte
values, ticks and counters.
-/

namespace MidiVis

/-- A note event (`function Note(time, beats, channel, pitch, vel)` plus the
`durTime`/`durBeats` fields that `addNote` attaches later; absent fields are
`none`). -/
structure Note where
  time : ℚ
  beats : ℚ
  channel : ℕ
  pitch : ℕ
  vel : ℕ
  durTime : Option ℚ := none
  durBeats : Option ℚ := none
deriving DecidableEq

/-- A tempo-map entry (`function Tempo(tick, microsecondsPerQuarterNote)`);
`mpqn` abbreviates microsecondsPerQuarterNote. -/
structure Tempo where
  tick : ℕ
  mpqn : ℕ
deriving DecidableEq

/-- A time-signature-map entry (`function TimeSignature(...)`; the `second`
field, filled in post-hoc by `createTimeSignatureMap`, is not modelled). -/
structure TimeSig where
  tick : ℕ
  numerator : ℕ
  denominator : ℕ
  metronomeInterval : ℕ
  hemiDemiSemi : ℕ
deriving DecidableEq

/-- A BPM-map entry (`function BPM(second, bpm, microsecondsPerQuarterNote)`). -/
structure BPM where
  second : ℚ
  bpm : ℚ
  mpqn : ℕ
deriving DecidableEq

/-- `this.file.charCodeAt(i)`: byte at index `i`, `0` past the end (see the
header comment on `NaN`). -/
def byteAt (file : List ℕ) (i : ℕ) : ℕ := file.getD i 0

/-- `m.getShort`: big-endian 16-bit read. -/
def getShort (file : List ℕ) (offset : ℕ) : ℕ :=
  byteAt file offset * 256 + byteAt file (offset + 1)

/-- `m.getLong`: big-endian 32-bit read. -/
def getLong (file : List ℕ) (offset : ℕ) : ℕ :=
  byteAt file offset * 2 ^ 24 + byteAt file (offset + 1) * 2 ^ 16 +
    byteAt file (offset + 2) * 2 ^ 8 + byteAt file (offset + 3)

/-- `m.getInt24`: big-endian 24-bit read (used for tempo payloads). -/
def getInt24 (file : List ℕ) (offset : ℕ) : ℕ :=
  byteAt file offset * 2 ^ 16 + byteAt file (offset + 1) * 2 ^ 8 +
    byteAt file (offset + 2)

/-- Loop body of `m.getVarLen` over the bytes from the current offset on:
count `1` for the final low byte and one more for every byte whose high bit
is set. -/
def getVarLenAux : List ℕ → ℕ
  | [] => 1
  | b :: rest => if b &&& 0x80 ≠ 0 then 1 + getVarLenAux rest else 1

/-- `m.getVarLen(offset)`: the byte length of the VLQ starting at `offset`. -/
def getVarLen (file : List ℕ) (offset : ℕ) : ℕ :=
  getVarLenAux (file.drop offset)

/-- Loop body of `m.getVarVal`: accumulate `result = result*128 + (b &&& 0x7f)`
while the high bit is set, stop inclusively on the first byte whose high bit
is clear (an out-of-range byte behaves like `0`). -/
def getVarValAux (acc : ℕ) : List ℕ → ℕ
  | [] => acc * 128
  | b :: rest =>
    if b &&& 0x80 ≠ 0 then getVarValAux (acc * 128 + (b &&& 0x7f)) rest
    else acc * 128 + (b &&& 0x7f)

/-- `m.getVarVal(offset)`: the value of the VLQ starting at `offset`. -/
def getVarVal (file : List ℕ) (offset : ℕ) : ℕ :=
  getVarValAux 0 (file.drop offset)

/-- `m.getEventLength(status, offset)`: data length by status top nibble, or
VLQ length + VLQ byte count + 1 for `0xff`/`0xf0`.  The JS function falls off
the end (returns `undefined`) for any other status, modelled as `none`. -/
def getEventLength (file : List ℕ) (status offset : ℕ) : Option ℕ :=
  let statusTop := (status &&& 0xf0) >>> 4
  if statusTop = 0x8 ∨ statusTop = 0x9 ∨ statusTop = 0xa ∨ statusTop = 0xb ∨
      statusTop = 0xe then
    some 2
  else if statusTop = 0xc ∨ statusTop = 0xd then
    some 1
  else if status = 0xff ∨ status = 0xf0 then
    some (getVarVal file (offset + 1) + getVarLen file (offset + 1) + 1)
  else
    none

/-- The condition of the backward scan in `m.addNote`
(`note2.vel && note2.pitch == pitch`), with channel equality standing for
membership in the per-channel note list `channelO.notes` — in the source the
scanned list holds exactly the notes of one channel, and each note is shared
between that list and the global `this.notes`, so a single global list with a
channel test is an equivalent pure model. -/
def noteMatches (channel pitch : ℕ) (n : Note) : Bool :=
  n.channel == channel && !(n.vel == 0) && n.pitch == pitch

/-- The backward scan of `m.addNote` on a note-off, expressed on the reversed
(newest-first) list of the channel's previously recorded notes: the first
match gets its duration fields assigned (the JS loop then forces `i = 0`,
exiting after the single nearest match).  The source does NOT require the
matched note's duration to be unset. -/
def resolveRev (time beats : ℚ) (channel pitch : ℕ) : List Note → List Note
  | [] => []
  | n :: rest =>
    if noteMatches channel pitch n then
      { n with durTime := some (time - n.time),
               durBeats := some (beats - n.beats) } :: rest
    else
      n :: resolveRev time beats channel pitch rest

/-- `m.addNote(time, beats, channel, pitch, vel)` acting on the global note
list: push the new note; if `vel` is falsy (0), scan backward from the
second-newest entry of the same channel's notes and resolve the first match. -/
def addNote (notes : List Note) (time beats : ℚ) (channel pitch vel : ℕ) :
    List Note :=
  let note : Note := { time := time, beats := beats, channel := channel,
                       pitch := pitch, vel := vel }
  if vel ≠ 0 then notes ++ [note]
  else (resolveRev time beats channel pitch notes.reverse).reverse ++ [note]

/-- Arguments of one `addNote` call. -/
structure NoteCall where
  time : ℚ
  beats : ℚ
  channel : ℕ
  pitch : ℕ
  vel : ℕ

/-- Run a sequence of `addNote` calls starting from the empty note list. -/
def runAddNotes (calls : List NoteCall) : List Note :=
  calls.foldl (fun acc c => addNote acc c.time c.beats c.channel c.pitch c.vel) []

/-- The tick the loop of `m.getTime` advances to in one iteration while the
current tempo-map entry has successors `rest`: the target tick if no further
tempo change precedes it, otherwise the next change's tick.  Note the loop
never consults the CURRENT entry's own tick. -/
def nextStop (target : ℕ) (rest : List Tempo) : ℕ :=
  match rest with
  | [] => target
  | u :: _ => if target ≤ u.tick then target else u.tick

/-- The `while (tickCounter < targetTick)` loop of `m.getTime`, structurally
recursive over the remaining tempo-map entries; `cur` is
`currentMicrosecondsPerQuarterNote`, `prev` is `prevTickCounter`.  Once the
map is exhausted the loop runs at most one more iteration, integrating the
remaining ticks at `cur`. -/
def getTimeGo (D : ℚ) (cur prev target : ℕ) : List Tempo → ℚ
  | [] =>
    if prev < target then
      ((cur : ℚ) * ((target : ℚ) - (prev : ℚ))) / D / 1000000
    else 0
  | t :: rest =>
    if prev < target then
      ((t.mpqn : ℚ) * ((nextStop target rest : ℚ) - (prev : ℚ))) / D / 1000000 +
        getTimeGo D t.mpqn (nextStop target rest) target rest
    else 0

/-- `m.getTime(targetTick)`: seconds elapsed at `targetTick`, integrating the
tempo map against time division `D` (`this.timeDivision`). -/
def getTime (D : ℚ) (map : List Tempo) (target : ℕ) : ℚ :=
  getTimeGo D 500000 0 target map

/-- The division-mode fields set by the `MidiFile` constructor (lines 104-113):
`framesPerSecond = timeDivision &&& 0x7fff` when the high bit is set,
`ticksPerBeat = timeDivision` otherwise.  No other code reads
`framesPerSecond`; all time math uses the raw `timeDivision`. -/
structure DivisionInfo where
  timeDivision : ℕ
  framesPerSecond : Option ℕ
  ticksPerBeat : Option ℕ
deriving DecidableEq

/-- Parse of the header division field (`MidiFile`, lines 107-110). -/
def parseDivision (division : ℕ) : DivisionInfo :=
  if division &&& 0x8000 ≠ 0 then
    { timeDivision := division, framesPerSecond := some (division &&& 0x7fff),
      ticksPerBeat := none }
  else
    { timeDivision := division, framesPerSecond := none,
      ticksPerBeat := some division }

/-- `Math.round(x)` in JavaScript is `floor(x + 1/2)`, which is Mathlib's
`round` on `ℚ`; `roundedBpm dp x` is the rounding the BPM-map builder applies:
`Math.round(x)` when `dp = 0`, `Math.round(x * 10^dp) / 10^dp` otherwise. -/
def roundedBpm (dp : ℕ) (x : ℚ) : ℚ :=
  if dp = 0 then ((round x : ℤ) : ℚ)
  else ((round (x * 10 ^ dp) : ℤ) : ℚ) / 10 ^ dp

/-- `Number.prototype.countDecimals`: `0` when `Math.floor(x) === x`, else the
number of digits after the decimal point of the JS decimal representation.  A
float's shortest decimal representation terminates, so the digit count is the
least `d` with `q * 10^d` integral; the fuel (1100 exceeds any double's
decimal length) makes the recursion structural. -/
def countDecimalsFuel : ℕ → ℚ → ℕ
  | 0, _ => 0
  | fuel + 1, q =>
    if (⌊q⌋ : ℚ) = q then 0 else 1 + countDecimalsFuel fuel (q * 10)

/-- `countDecimals` of a (terminating-decimal) rational. -/
def countDecimals (q : ℚ) : ℕ := countDecimalsFuel 1100 q

/-- Loop of `createBpmMap` (lines 1063-1083).  The accumulated `bpmMap` is
kept newest-first (`revAcc`) so the JS `bpmMap[bpmMap.length - 1]` is the head;
the result is reversed back on exit.  The `i == 0` test of the source
coincides with `revAcc = []` because the first iteration always pushes.  For
`i > 0` the source compares `Math.round(bpm * A) / A` against
`Math.round(lastKept.bpm * A) / A` (resp. the `Math.round(_)` forms when
`dp = 0`) and pushes the rounded BPM when the absolute difference reaches the
threshold. -/
def createBpmMapGo (D thr : ℚ) (dp : ℕ) (fullMap : List Tempo)
    (revAcc : List BPM) : List Tempo → List BPM
  | [] => revAcc.reverse
  | t :: rest =>
    let second := getTime D fullMap t.tick
    let bpm : ℚ := 60000000 / (t.mpqn : ℚ)
    let thresholdNext := roundedBpm dp bpm
    match revAcc with
    | [] =>
      createBpmMapGo D thr dp fullMap [⟨second, thresholdNext, t.mpqn⟩] rest
    | last :: older =>
      if thr ≤ |thresholdNext - roundedBpm dp last.bpm| then
        createBpmMapGo D thr dp fullMap
          (⟨second, thresholdNext, t.mpqn⟩ :: last :: older) rest
      else
        createBpmMapGo D thr dp fullMap (last :: older) rest

/-- `createBpmMap(midiFile)` with the caller-supplied change threshold `thr`
(`midiCustomSettings.bpmChangeThreshold`); the rounding precision is
`countDecimals thr` exactly as in the source. -/
def createBpmMap (D thr : ℚ) (tm : List Tempo) : List BPM :=
  createBpmMapGo D thr (countDecimals thr) tm [] tm

/-- Reference definition following the spec's words (§4.6): convert each entry
to `(secondsAt tick, 60000000 / mpqn)`, always keep the first entry, keep a
subsequent entry only if `|roundedBpm − lastKeptBpm| ≥ threshold`, where
`lastKeptBpm` is the (rounded) BPM of the last kept entry. -/
def specBpmGo (D thr : ℚ) (dp : ℕ) (fullMap : List Tempo) (lastKept : ℚ) :
    List Tempo → List BPM
  | [] => []
  | t :: rest =>
    let r := roundedBpm dp (60000000 / (t.mpqn : ℚ))
    if thr ≤ |r - lastKept| then
      ⟨getTime D fullMap t.tick, r, t.mpqn⟩ :: specBpmGo D thr dp fullMap r rest
    else
      specBpmGo D thr dp fullMap lastKept rest

/-- Reference definition following the spec's words (§4.6), top level: the
first entry is always kept. -/
def specBpmMap (D thr : ℚ) (tm : List Tempo) : List BPM :=
  match tm with
  | [] => []
  | t :: rest =>
    let dp := countDecimals thr
    let r := roundedBpm dp (60000000 / (t.mpqn : ℚ))
    ⟨getTime D tm t.tick, r, t.mpqn⟩ :: specBpmGo D thr dp tm r rest

/-- Reference definition following the spec's words (§4.5): the stop tick of
the segment owned by a tempo entry whose successors are `rest` — the target,
clipped by the next entry's tick. -/
def specStop (target : ℕ) (rest : List Tempo) : ℕ :=
  match rest with
  | [] => target
  | u :: _ => min target u.tick

/-- Reference definition following the spec's words (§4.5): piecewise
integration — for each interval from an entry's tick to the next entry's tick
(or to the target for the last applicable interval) add
`mpqn * intervalTicks / ticksPerBeat / 1000000`. -/
def specSecondsGo (D : ℚ) (target : ℕ) : List Tempo → ℚ
  | [] => 0
  | t :: rest =>
    (if t.tick < specStop target rest then
       ((t.mpqn : ℚ) * ((specStop target rest : ℚ) - (t.tick : ℚ))) / D / 1000000
     else 0) + specSecondsGo D target rest

/-- Reference definition following the spec's words (§4.5): `secondsAt`, with
the tempo map implicitly extended by a leading 500000 µs/quarter entry at tick
0 when the first tempo event (if any) is not at tick 0. -/
def specSecondsAt (D : ℚ) (map : List Tempo) (target : ℕ) : ℚ :=
  match map with
  | [] => specSecondsGo D target [{ tick := 0, mpqn := 500000 }]
  | t :: _ =>
    if t.tick = 0 then specSecondsGo D target map
    else specSecondsGo D target ({ tick := 0, mpqn := 500000 } :: map)

/-- The bytes of the ASCII tag `MThd`. -/
def mthdBytes : List ℕ := [0x4d, 0x54, 0x68, 0x64]

/-- The bytes of the ASCII tag `MTrk`. -/
def mtrkBytes : List ℕ := [0x4d, 0x54, 0x72, 0x6b]

/-- `isMidi(s)`: whether the first four bytes are `MThd`.  The constructor
stores the result in `this.isMidi` (line 102) and continues decoding either
way; no caller in the repository ever reads the flag. -/
def isMidi (file : List ℕ) : Bool := file.take 4 == mthdBytes

/-- The per-track loop variables of the `MidiFile` constructor
(lines 140-145). -/
structure TrackVars where
  chunkOffset : ℕ
  previousStatus : ℕ
  ticks : ℕ
  midiChanPref : ℕ
  seconds : ℚ
deriving DecidableEq

/-- The decoding state accumulated on `this` by the `MidiFile` constructor.
String-valued pieces (track and instrument names) and the per-channel grouping
are not modelled; `notes` is the global note list and `trackCount` the length
of `this.tracks`. -/
structure DecodeState where
  mpqn : ℕ
  chunkCount : ℕ
  noteOns : ℕ
  noteOffs : ℕ
  notes : List Note
  trackCount : ℕ
  tempoMap : List Tempo
  timeSignatureMap : List TimeSig
deriving DecidableEq

/-- `m.addNote` including the `noteOns`/`noteOffs` counters. -/
def addNoteState (st : DecodeState) (time beats : ℚ) (channel pitch vel : ℕ) :
    DecodeState :=
  { st with
    notes := addNote st.notes time beats channel pitch vel
    noteOns := if vel ≠ 0 then st.noteOns + 1 else st.noteOns
    noteOffs := if vel = 0 then st.noteOffs + 1 else st.noteOffs }

/-- The per-event inner loop of the `MidiFile` constructor (lines 146-214):
read the delta VLQ, update `seconds`/`beats` when the accumulated tick count,
the division and the live tempo are all truthy, resolve running status, then
dispatch on the status top nibble (8 = note off, 9 = note on, `0xff` = meta;
meta sub-types `0x51` and `0x58` extend the tempo and time-signature maps,
`0x20` sets the channel prefix).  Finally advance by `getEventLength`; when
that is `undefined` (`none`) the JS cursor becomes `NaN` and the loop stops.
The fuel argument only bounds the iteration count; each iteration advances the
cursor by at least 2 bytes, so `chunkEnd` iterations always suffice. -/
def trackLoop (file : List ℕ) (D : ℚ) (currentTrack chunkEnd : ℕ) :
    ℕ → TrackVars → DecodeState → TrackVars × DecodeState
  | 0, tv, st => (tv, st)
  | fuel + 1, tv, st =>
    if tv.chunkOffset < chunkEnd then
      let delta := getVarVal file tv.chunkOffset
      let ticks := tv.ticks + delta
      let seconds := if ticks ≠ 0 ∧ D ≠ 0 ∧ st.mpqn ≠ 0 then
          getTime D st.tempoMap ticks
        else tv.seconds
      let beats : ℚ := if ticks ≠ 0 ∧ D ≠ 0 ∧ st.mpqn ≠ 0 then (ticks : ℚ) / D
        else 0
      let off1 := tv.chunkOffset + getVarLen file tv.chunkOffset
      let rawStatus := byteAt file off1
      let status := if rawStatus &&& 0x80 ≠ 0 then rawStatus
        else tv.previousStatus
      let off2 := if rawStatus &&& 0x80 ≠ 0 then off1 + 1 else off1
      let statusTop := if status = 0xff then 0xff else (status &&& 0xf0) >>> 4
      let channel := currentTrack * 16 + (status &&& 0x0f)
      let b1 := byteAt file off2
      let b2 := byteAt file (off2 + 1)
      let st1 :=
        if statusTop = 8 then addNoteState st seconds beats channel b1 0
        else if statusTop = 9 then addNoteState st seconds beats channel b1 b2
        else if statusTop = 0xff then
          if b1 = 0x51 then
            let t := getInt24 file (off2 + 2)
            { st with mpqn := t, tempoMap := st.tempoMap ++ [⟨ticks, t⟩] }
          else if b1 = 0x58 then
            { st with timeSignatureMap := st.timeSignatureMap ++
                [⟨ticks, byteAt file (off2 + 2), 2 ^ byteAt file (off2 + 3),
                  byteAt file (off2 + 4), byteAt file (off2 + 5)⟩] }
          else st
        else st
      let pref := if statusTop = 0xff ∧ b1 = 0x20 then byteAt file (off2 + 2)
        else tv.midiChanPref
      match getEventLength file status off2 with
      | none => (tv, st1)
      | some len =>
        trackLoop file D currentTrack chunkEnd fuel
          ⟨off2 + len, status, ticks, pref, seconds⟩ st1
    else (tv, st)

/-- The chunk scan of the `MidiFile` constructor (lines 130-219): from offset
14, read a 4-byte tag and a 4-byte length, decode `MTrk` chunks, skip all
others by their declared length.  The scan happens unconditionally, whatever
`isMidi` returned.  Fuel bounds the iteration count; each iteration advances
the offset by at least 8 bytes. -/
def chunkLoop (file : List ℕ) (D : ℚ) :
    ℕ → ℕ → ℕ → DecodeState → DecodeState
  | 0, _, _, st => st
  | fuel + 1, offset, currentTrack, st =>
    if offset < file.length then
      let chunkType := (file.drop offset).take 4
      let chunkLength := getLong file (offset + 4)
      let st1 := { st with chunkCount := st.chunkCount + 1 }
      if chunkType = mtrkBytes then
        let st2 := { st1 with trackCount := st1.trackCount + 1 }
        let res := trackLoop file D currentTrack (offset + 8 + chunkLength)
          (chunkLength + 1) ⟨offset + 8, 0, 0, 0, 0⟩ st2
        chunkLoop file D fuel (offset + 8 + chunkLength) (currentTrack + 1) res.2
      else
        chunkLoop file D fuel (offset + 8 + chunkLength) currentTrack st1
    else st

/-- Stable insertion of a note into a time-sorted list; models the final
`this.notes.sort(function(a, b) { return a.time - b.time; })`. -/
def insertByTime (n : Note) : List Note → List Note
  | [] => [n]
  | m :: rest => if n.time ≤ m.time then n :: m :: rest
    else m :: insertByTime n rest

/-- Sort the global note list by time (stable). -/
def sortByTime (notes : List Note) : List Note :=
  notes.foldr insertByTime []

/-- The result of the `MidiFile` constructor: the `isMidi` flag, the parsed
header fields and the accumulated decoding state. -/
structure MidiFileResult where
  isMidiFlag : Bool
  format : ℕ
  headerTrackCount : ℕ
  timeDivision : ℕ
  state : DecodeState
deriving DecidableEq

/-- The initial decoder state (constructor lines 93-124): live tempo 500000,
everything else empty. -/
def initState : DecodeState :=
  { mpqn := 500000, chunkCount := 0, noteOns := 0, noteOffs := 0, notes := []
    trackCount := 0, tempoMap := [], timeSignatureMap := [] }

/-- The `MidiFile` constructor on a raw byte buffer (half-speed checkbox off,
no cancellation): parse the header shorts, scan chunks from offset 14, then
sort the global note list by time. -/
def decodeMidiFile (file : List ℕ) : MidiFileResult :=
  let division := getShort file 12
  let st := chunkLoop file (division : ℚ) (file.length + 1) 14 0 initState
  { isMidiFlag := isMidi file, format := getShort file 8,
    headerTrackCount := getShort file 10, timeDivision := division,
    state := { st with notes := sortByTime st.notes } }

/-- A 30-byte buffer whose first four bytes spell `Junk` rather than `MThd`,
followed by ordinary header fields (division 0x60) and one well-formed `MTrk`
chunk holding a note-on (pitch 60, velocity 100) and a note-off at tick 0. -/
def junkFile : List ℕ :=
  [0x4a, 0x75, 0x6e, 0x6b, 0, 0, 0, 6, 0, 0, 0, 1, 0, 0x60,
   0x4d, 0x54, 0x72, 0x6b, 0, 0, 0, 8,
   0x00, 0x90, 0x3c, 0x64, 0x00, 0x80, 0x3c, 0x00]

/-- A note matched by the backward scan has a truthy velocity. -/
theorem noteMatches_vel_ne_zero {c p : ℕ} {n : Note}
    (h : noteMatches c p n = true) : n.vel ≠ 0 := by
  simp [noteMatches] at h
  exact h.1.2

/-- The backward scan passes over a block containing no match. -/
theorem resolveRev_append_no_match (time beats : ℚ) (c p : ℕ) :
    ∀ (A B : List Note), (∀ n ∈ A, noteMatches c p n = false) →
      resolveRev time beats c p (A ++ B) = A ++ resolveRev time beats c p B := by
  intro A
  induction A with
  | nil => intro B _; simp
  | cons a A ih =>
    intro B h
    have ha : noteMatches c p a = false := h a (by simp)
    simp [resolveRev, ha, ih B (fun n hn => h n (by simp [hn]))]

/-- The backward scan resolves a matching head and stops. -/
theorem resolveRev_cons_match (time beats : ℚ) (c p : ℕ) (m : Note)
    (l : List Note) (hm : noteMatches c p m = true) :
    resolveRev time beats c p (m :: l) =
      { m with durTime := some (time - m.time),
               durBeats := some (beats - m.beats) } :: l := by
  simp [resolveRev, hm]

/-- The backward scan never attaches a duration to a velocity-0 event. -/
theorem resolveRev_offs_unresolved (time beats : ℚ) (c p : ℕ) :
    ∀ (l : List Note),
      (∀ n ∈ l, n.vel = 0 → n.durTime = none ∧ n.durBeats = none) →
      ∀ n ∈ resolveRev time beats c p l, n.vel = 0 →
        n.durTime = none ∧ n.durBeats = none := by
  intro l
  induction l with
  | nil => intro _ n hn; simp [resolveRev] at hn
  | cons a l ih =>
    intro h n hn hv
    by_cases ha : noteMatches c p a = true
    · rw [resolveRev_cons_match _ _ _ _ _ _ ha] at hn
      rcases List.mem_cons.1 hn with rfl | hn2
      · exact absurd hv (noteMatches_vel_ne_zero ha)
      · exact h n (List.mem_cons_of_mem _ hn2) hv
    · rw [resolveRev] at hn
      rw [Bool.not_eq_true] at ha
      rw [if_neg (by simp [ha])] at hn
      rcases List.mem_cons.1 hn with rfl | hn2
      · exact h n (List.mem_cons_self _ _) hv
      · exact ih (fun x hx => h x (List.mem_cons_of_mem _ hx)) n hn2 hv

/-- One `addNote` call preserves the C10 invariant. -/
theorem addNote_offs_unresolved (notes : List Note) (time beats : ℚ)
    (channel pitch vel : ℕ)
    (h : ∀ n ∈ notes, n.vel = 0 → n.durTime = none ∧ n.durBeats = none) :
    ∀ n ∈ addNote notes time beats channel pitch vel, n.vel = 0 →
      n.durTime = none ∧ n.durBeats = none := by
  intro n hn hv
  rw [addNote] at hn
  by_cases hvel : vel ≠ 0
  · rw [if_pos hvel] at hn
    rcases List.mem_append.1 hn with hn2 | hn2
    · exact h n hn2 hv
    · simp at hn2; subst hn2; exact ⟨rfl, rfl⟩
  · rw [if_neg hvel] at hn
    rcases List.mem_append.1 hn with hn2 | hn2
    · exact resolveRev_offs_unresolved time beats channel pitch notes.reverse
        (fun x hx => h x (List.mem_reverse.1 hx)) n (List.mem_reverse.1 hn2) hv
    · simp at hn2; subst hn2; exact ⟨rfl, rfl⟩

/-- The `getTime` loop does not run when the target tick is already reached. -/
theorem getTimeGo_self (D : ℚ) (cur prev : ℕ) (map : List Tempo) :
    getTimeGo D cur prev prev map = 0 := by
  cases map <;> simp [getTimeGo]

/-- One integration segment is non-negative when it spans forward. -/
theorem seg_nonneg (D : ℚ) (hD : 0 < D) (c prev next : ℕ) (h : prev ≤ next) :
    0 ≤ ((c : ℚ) * ((next : ℚ) - (prev : ℚ))) / D / 1000000 := by
  apply div_nonneg _ (by norm_num)
  apply div_nonneg _ hD.le
  exact mul_nonneg (Nat.cast_nonneg c) (sub_nonneg.2 (by exact_mod_cast h))

/-- One integration segment grows with its stop tick. -/
theorem seg_mono (D : ℚ) (hD : 0 < D) (c prev x y : ℕ) (h : x ≤ y) :
    ((c : ℚ) * ((x : ℚ) - (prev : ℚ))) / D / 1000000 ≤
      ((c : ℚ) * ((y : ℚ) - (prev : ℚ))) / D / 1000000 := by
  rw [div_le_div_iff_of_pos_right (by norm_num : (0 : ℚ) < 1000000),
    div_le_div_iff_of_pos_right hD]
  apply mul_le_mul_of_nonneg_left _ (Nat.cast_nonneg c)
  have : (x : ℚ) ≤ (y : ℚ) := by exact_mod_cast h
  linarith

/-- The stop tick of a segment never precedes the segment start. -/
theorem nextStop_ge (target prev : ℕ) (rest : List Tempo) (hp : prev < target)
    (hrest : ∀ e ∈ rest, prev ≤ e.tick) : prev ≤ nextStop target rest := by
  cases rest with
  | nil => exact hp.le
  | cons u rest2 =>
    rw [nextStop]
    split
    · exact hp.le
    · exact hrest u (by simp)

/-- The stop tick of a segment precedes every remaining tempo change. -/
theorem nextStop_le_all (target : ℕ) (rest : List Tempo)
    (hpair : List.Pairwise (fun a b => a.tick < b.tick) rest) :
    ∀ e ∈ rest, nextStop target rest ≤ e.tick := by
  cases rest with
  | nil => simp
  | cons u rest2 =>
    intro e he
    have hu : nextStop target (u :: rest2) ≤ u.tick := by
      rw [nextStop]
      split
      · assumption
      · exact le_refl _
    rcases List.mem_cons.1 he with rfl | he2
    · exact hu
    · exact hu.trans ((List.pairwise_cons.1 hpair).1 e he2).le

/-- The `getTime` loop yields a non-negative sum on an ascending, positive
tempo map whose entries all lie at or beyond the start tick. -/
theorem getTimeGo_nonneg (D : ℚ) (hD : 0 < D) :
    ∀ (map : List Tempo) (cur prev target : ℕ), 0 < cur →
      (∀ e ∈ map, 0 < e.mpqn) →
      List.Pairwise (fun a b => a.tick < b.tick) map →
      (∀ e ∈ map, prev ≤ e.tick) →
      0 ≤ getTimeGo D cur prev target map := by
  intro map
  induction map with
  | nil =>
    intro cur prev target hcur _ _ _
    rw [getTimeGo]
    split
    · next h => exact seg_nonneg D hD cur prev target h.le
    · exact le_refl 0
  | cons t rest ih =>
    intro cur prev target hcur hpos hpair hprev
    rw [getTimeGo]
    split
    · next hlt =>
      have hpos_t : 0 < t.mpqn := hpos t (by simp)
      have hpos_rest : ∀ e ∈ rest, 0 < e.mpqn := fun e he => hpos e (by simp [he])
      have hpair_rest := (List.pairwise_cons.1 hpair).2
      have hprev_rest : ∀ e ∈ rest, prev ≤ e.tick :=
        fun e he => hprev e (by simp [he])
      apply add_nonneg
      · exact seg_nonneg D hD t.mpqn prev (nextStop target rest)
          (nextStop_ge target prev rest hlt hprev_rest)
      · exact ih t.mpqn (nextStop target rest) target hpos_t hpos_rest hpair_rest
          (nextStop_le_all target rest hpair_rest)
    · exact le_refl 0

/-- The `getTime` loop is monotone in the target tick on an ascending,
positive tempo map whose entries all lie at or beyond the start tick. -/
theorem getTimeGo_mono (D : ℚ) (hD : 0 < D) :
    ∀ (map : List Tempo) (cur prev t1 t2 : ℕ), 0 < cur →
      (∀ e ∈ map, 0 < e.mpqn) →
      List.Pairwise (fun a b => a.tick < b.tick) map →
      (∀ e ∈ map, prev ≤ e.tick) →
      t1 ≤ t2 →
      getTimeGo D cur prev t1 map ≤ getTimeGo D cur prev t2 map := by
  intro map
  induction map with
  | nil =>
    intro cur prev t1 t2 hcur hpos hpair hprev h12
    rw [getTimeGo, getTimeGo]
    by_cases h1 : prev < t1
    · rw [if_pos h1, if_pos (h1.trans_le h12)]
      exact seg_mono D hD cur prev t1 t2 h12
    · rw [if_neg h1]
      split
      · next h2 => exact seg_nonneg D hD cur prev t2 h2.le
      · exact le_refl 0
  | cons t rest ih =>
    intro cur prev t1 t2 hcur hpos hpair hprev h12
    have hpos_t : 0 < t.mpqn := hpos t (by simp)
    have hpos_rest : ∀ e ∈ rest, 0 < e.mpqn := fun e he => hpos e (by simp [he])
    have hpair_rest := (List.pairwise_cons.1 hpair).2
    have hprev_rest : ∀ e ∈ rest, prev ≤ e.tick :=
      fun e he => hprev e (by simp [he])
    by_cases h1 : prev < t1
    · have h2 : prev < t2 := h1.trans_le h12
      rw [getTimeGo, getTimeGo, if_pos h1, if_pos h2]
      cases rest with
      | nil =>
        simp only [nextStop]
        rw [getTimeGo_self, getTimeGo_self]
        simpa using seg_mono D hD t.mpqn prev t1 t2 h12
      | cons u rest2 =>
        have hall : ∀ e ∈ u :: rest2, u.tick ≤ e.tick := by
          intro e he
          rcases List.mem_cons.1 he with rfl | he2
          · exact le_refl _
          · exact ((List.pairwise_cons.1 hpair_rest).1 e he2).le
        by_cases hu2 : t2 ≤ u.tick
        · have hu1 : t1 ≤ u.tick := h12.trans hu2
          rw [show nextStop t1 (u :: rest2) = t1 from by
              rw [nextStop]; exact if_pos hu1,
            show nextStop t2 (u :: rest2) = t2 from by
              rw [nextStop]; exact if_pos hu2,
            getTimeGo_self, getTimeGo_self]
          simpa using seg_mono D hD t.mpqn prev t1 t2 h12
        · by_cases hu1 : t1 ≤ u.tick
          · rw [show nextStop t1 (u :: rest2) = t1 from by
                rw [nextStop]; exact if_pos hu1,
              show nextStop t2 (u :: rest2) = u.tick from by
                rw [nextStop]; exact if_neg hu2,
              getTimeGo_self]
            have hseg := seg_mono D hD t.mpqn prev t1 u.tick hu1
            have hrec : 0 ≤ getTimeGo D t.mpqn u.tick t2 (u :: rest2) :=
              getTimeGo_nonneg D hD (u :: rest2) t.mpqn u.tick t2 hpos_t
                hpos_rest hpair_rest hall
            have := add_le_add hseg hrec
            simpa using this
          · rw [show nextStop t1 (u :: rest2) = u.tick from by
                rw [nextStop]; exact if_neg hu1,
              show nextStop t2 (u :: rest2) = u.tick from by
                rw [nextStop]; exact if_neg hu2]
            apply add_le_add (le_refl _)
            exact ih t.mpqn u.tick t1 t2 hpos_t hpos_rest hpair_rest hall h12
    · rw [getTimeGo, if_neg h1]
      exact getTimeGo_nonneg D hD (t :: rest) cur prev t2 hcur hpos hpair hprev

/-- BPM rounding is idempotent, so re-rounding the last kept (already rounded)
BPM — which is what the source's `thresholdCurrent` computes — returns it
unchanged. -/
theorem roundedBpm_idem (dp : ℕ) (x : ℚ) :
    roundedBpm dp (roundedBpm dp x) = roundedBpm dp x := by
  rw [roundedBpm, roundedBpm]
  by_cases h : dp = 0
  · rw [if_pos h, if_pos h, round_intCast]
  · rw [if_neg h, if_neg h]
    have hA : ((10 : ℚ) ^ dp) ≠ 0 := by positivity
    rw [div_mul_cancel₀ _ hA, round_intCast]

/-- Unfolding equation of the BPM-map loop: exhausted input. -/
theorem createBpmMapGo_nil (D thr : ℚ) (dp : ℕ) (fm : List Tempo)
    (revAcc : List BPM) :
    createBpmMapGo D thr dp fm revAcc [] = revAcc.reverse := rfl

/-- Unfolding equation of the BPM-map loop: the first iteration always
pushes. -/
theorem createBpmMapGo_first (D thr : ℚ) (dp : ℕ) (fm : List Tempo)
    (t : Tempo) (rest : List Tempo) :
    createBpmMapGo D thr dp fm [] (t :: rest) =
      createBpmMapGo D thr dp fm
        [⟨getTime D fm t.tick, roundedBpm dp (60000000 / (t.mpqn : ℚ)), t.mpqn⟩]
        rest := rfl

/-- Unfolding equation of the BPM-map loop: a later iteration pushes exactly
when the rounded BPM difference against the re-rounded last kept BPM reaches
the threshold. -/
theorem createBpmMapGo_cons (D thr : ℚ) (dp : ℕ) (fm : List Tempo)
    (t : Tempo) (rest : List Tempo) (last : BPM) (older : List BPM) :
    createBpmMapGo D thr dp fm (last :: older) (t :: rest) =
      if thr ≤ |roundedBpm dp (60000000 / (t.mpqn : ℚ)) - roundedBpm dp last.bpm|
      then
        createBpmMapGo D thr dp fm
          (⟨getTime D fm t.tick, roundedBpm dp (60000000 / (t.mpqn : ℚ)),
            t.mpqn⟩ :: last :: older) rest
      else createBpmMapGo D thr dp fm (last :: older) rest := rfl

/-- Unfolding equation of the spec-side filter. -/
theorem specBpmGo_cons (D thr : ℚ) (dp : ℕ) (fm : List Tempo) (lastKept : ℚ)
    (t : Tempo) (rest : List Tempo) :
    specBpmGo D thr dp fm lastKept (t :: rest) =
      if thr ≤ |roundedBpm dp (60000000 / (t.mpqn : ℚ)) - lastKept| then
        ⟨getTime D fm t.tick, roundedBpm dp (60000000 / (t.mpqn : ℚ)), t.mpqn⟩ ::
          specBpmGo D thr dp fm (roundedBpm dp (60000000 / (t.mpqn : ℚ))) rest
      else specBpmGo D thr dp fm lastKept rest := rfl

/-- The source loop agrees with the spec-side filter once at least one entry
has been kept and the last kept BPM is already rounded. -/
theorem createBpmMapGo_eq_spec (D thr : ℚ) (dp : ℕ) (fm : List Tempo) :
    ∀ (ts : List Tempo) (last : BPM) (older : List BPM),
      roundedBpm dp last.bpm = last.bpm →
      createBpmMapGo D thr dp fm (last :: older) ts =
        (last :: older).reverse ++ specBpmGo D thr dp fm last.bpm ts := by
  intro ts
  induction ts with
  | nil => intro last older _; simp [createBpmMapGo_nil, specBpmGo]
  | cons t rest ih =>
    intro last older h
    rw [createBpmMapGo_cons, specBpmGo_cons, h]
    have hkeep := ih
      ⟨getTime D fm t.tick, roundedBpm dp (60000000 / (t.mpqn : ℚ)), t.mpqn⟩
      (last :: older) (roundedBpm_idem dp (60000000 / (t.mpqn : ℚ)))
    have hdrop := ih last older h
    by_cases hc : thr ≤ |roundedBpm dp (60000000 / (t.mpqn : ℚ)) - last.bpm|
    · rw [if_pos hc, if_pos hc, hkeep]
      simp
    · rw [if_neg hc, if_neg hc, hdrop]

/-- `createBpmMap` computes exactly the spec's always-keep-first,
keep-when-threshold-reached filter. -/
theorem createBpmMap_eq_specBpmMap (D thr : ℚ) (tm : List Tempo) :
    createBpmMap D thr tm = specBpmMap D thr tm := by
  cases tm with
  | nil => simp [createBpmMap, createBpmMapGo, specBpmMap]
  | cons t rest =>
    rw [createBpmMap, specBpmMap, createBpmMapGo_first,
      createBpmMapGo_eq_spec D thr (countDecimals thr) (t :: rest) rest
        ⟨getTime D (t :: rest) t.tick,
          roundedBpm (countDecimals thr) (60000000 / (t.mpqn : ℚ)), t.mpqn⟩ []
        (roundedBpm_idem _ _)]
    simp

/-- The threshold 0.5 has one decimal digit. -/
theorem countDecimals_half : countDecimals (1/2) = 1 := by
  have h1 : (1100 : ℕ) = 1099 + 1 := rfl
  have h2 : (1099 : ℕ) = 1098 + 1 := rfl
  rw [countDecimals, h1, countDecimalsFuel, h2, countDecimalsFuel]
  norm_num

/-- Claim C1, counterexample: the backward scan of `addNote` does NOT require
the matched note's duration to be unset.  After note-on(pitch 60, t=0) and
note-off(t=1) the note-on's duration is 1; a second stray note-off at t=2
re-matches the same, already resolved note-on and overwrites its duration to
2, so an event whose duration is already set IS matched and another note's
duration changes — refuting the claim as stated. -/
theorem addNote_rematches_resolved_note :
    (addNote (addNote (addNote ([] : List Note) 0 0 0 60 100) 1 1 0 60 0)
        2 2 0 60 0).map Note.durTime = [some 2, none, none] ∧
    (addNote (addNote ([] : List Note) 0 0 0 60 100) 1 1 0 60 0).map
        Note.durTime = [some 1, none] := by
  constructor <;> norm_num [addNote, resolveRev, noteMatches]

/-- Claim C1, amended: for every note-off processed by `addNote`, the backward
scan over the same channel's note list resolves exactly the nearest preceding
note event with velocity > 0 and the same pitch — whether or not its duration
is already set (re-resolving overwrites the duration) — setting that note's
duration in seconds and in beats to the terminator's time minus the note's
time; no other note changes, and the terminator is appended unresolved. -/
theorem addNote_off_resolves_nearest (pre post : List Note) (m : Note)
    (time beats : ℚ) (c p : ℕ) (hm : noteMatches c p m = true)
    (hpost : ∀ n ∈ post, noteMatches c p n = false) :
    addNote (pre ++ m :: post) time beats c p 0 =
      pre ++ { m with durTime := some (time - m.time),
                      durBeats := some (beats - m.beats) } ::
        (post ++ [{ time := time, beats := beats, channel := c, pitch := p,
                    vel := 0 }]) := by
  have hrev : (pre ++ m :: post).reverse = post.reverse ++ m :: pre.reverse := by
    simp
  rw [addNote]
  simp only [ne_eq, not_true_eq_false, if_false, if_neg]
  rw [hrev, resolveRev_append_no_match time beats c p post.reverse
        (m :: pre.reverse) (fun n hn => hpost n (List.mem_reverse.1 hn)),
      resolveRev_cons_match time beats c p m pre.reverse hm]
  simp

/-- Claim C1, witness: two overlapping note-ons of pitch 60 followed by one
note-off; the terminator at time 3 resolves the nearer note-on (time 1),
leaving the earlier one untouched. -/
theorem addNote_off_resolves_nearest_witness :
    noteMatches 0 60 (Note.mk 1 1 0 60 100 none none) = true ∧
    (∀ n ∈ [Note.mk 2 2 0 60 0 none none], noteMatches 0 60 n = false) ∧
    addNote [Note.mk 0 0 0 60 100 none none, Note.mk 1 1 0 60 100 none none,
        Note.mk 2 2 0 60 0 none none] 3 3 0 60 0 =
      [Note.mk 0 0 0 60 100 none none,
       Note.mk 1 1 0 60 100 (some 2) (some 2),
       Note.mk 2 2 0 60 0 none none,
       Note.mk 3 3 0 60 0 none none] := by
  refine ⟨by decide, by decide, ?_⟩
  have h := addNote_off_resolves_nearest [Note.mk 0 0 0 60 100 none none]
    [Note.mk 2 2 0 60 0 none none] (Note.mk 1 1 0 60 100 none none)
    3 3 0 60 (by decide) (by decide)
  norm_num at h
  exact h

/-- Claim C2 (code bug): `getTime` never consults the first tempo entry's
tick, so with a tempo map whose single entry of 1000000 µs/quarter lies at
tick 100 and division 100, the ticks 0..50 are integrated at 1000000 (giving
0.5 s), not at the claimed default 500000 (the spec-side `specSecondsAt`
gives 0.25 s).  The claim's empty-tempo-map clause does hold:
`getTime D [] n = n * 500000 / D / 1000000`. -/
theorem getTime_first_tempo_applied_from_tick_zero :
    getTime 100 [Tempo.mk 100 1000000] 50 = 1/2 ∧
    specSecondsAt 100 [Tempo.mk 100 1000000] 50 = 1/4 ∧
    ∀ (D : ℚ) (n : ℕ), getTime D [] n = 500000 * n / D / 1000000 := by
  refine ⟨?_, ?_, ?_⟩
  · norm_num [getTime, getTimeGo, nextStop]
  · norm_num [specSecondsAt, specSecondsGo, specStop]
  · intro D n
    cases n with
    | zero => simp [getTime, getTimeGo]
    | succ k => simp [getTime, getTimeGo]

/-- Claim C3 (code bug): a buffer whose first four bytes are `Junk` is flagged
`isMidi = false`, yet the constructor still scans the chunk sequence and
decodes the embedded `MTrk` chunk, producing one chunk, one track and two note
events — decoding does not fail fast and entities ARE produced. -/
theorem decode_without_mthd_still_scans :
    isMidi junkFile = false ∧
    (decodeMidiFile junkFile).state.chunkCount = 1 ∧
    (decodeMidiFile junkFile).state.trackCount = 1 ∧
    (decodeMidiFile junkFile).state.notes.map Note.pitch = [60, 60] ∧
    (decodeMidiFile junkFile).state.notes.map Note.vel = [100, 0] := by
  refine ⟨by decide, by decide, by decide, by decide, by decide⟩

/-- Claim C4 (code bug): with division 0x8064 the high bit is set (the header
records framesPerSecond = 0x64 and no ticksPerBeat), yet elapsed seconds still
depend on the tempo map — `getTime` with the raw division differs between the
empty tempo map and a 1000000 µs/quarter map at the same tick 100 — whereas
the claimed formula ticks / (framesPerSecond × ticksPerFrame) is independent
of tempo.  No frames-mode branch exists in the code. -/
theorem frames_mode_does_not_bypass_tempo_map :
    (parseDivision 0x8064).framesPerSecond = some 0x64 ∧
    (parseDivision 0x8064).ticksPerBeat = none ∧
    getTime 32868 [Tempo.mk 0 1000000] 100 ≠ getTime 32868 [] 100 := by
  refine ⟨by decide, by decide, ?_⟩
  norm_num [getTime, getTimeGo, nextStop]

/-- Claim C5 (code bug): `getEventLength` computes the meta-style VLQ skip
length for status 0xF0, but for status 0xF7 it falls off the end of the
function (its test is `status == 0xff || status == 0xf0`), returning
`undefined` (`none`) — not a defined skip length as the claim states. -/
theorem getEventLength_sysex_f7_undefined :
    getEventLength [0xf0, 0x03, 0x01, 0x02, 0x03] 0xf0 0 = some 5 ∧
    getEventLength [0xf7, 0x03, 0x01, 0x02, 0x03] 0xf7 0 = none := by
  exact ⟨by decide, by decide⟩

/-- Claim C6: `getTime` maps tick 0 to 0 seconds and, for a strictly
ascending tempo map with positive tempo values and positive division, is
non-decreasing in the target tick. -/
theorem getTime_zero_and_monotone (D : ℚ) (map : List Tempo) (hD : 0 < D)
    (hasc : List.Pairwise (fun a b => a.tick < b.tick) map)
    (hpos : ∀ e ∈ map, 0 < e.mpqn) :
    getTime D map 0 = 0 ∧
      ∀ t1 t2 : ℕ, t1 ≤ t2 → getTime D map t1 ≤ getTime D map t2 := by
  constructor
  · exact getTimeGo_self D 500000 0 map
  · intro t1 t2 h
    exact getTimeGo_mono D hD map 500000 0 t1 t2 (by norm_num) hpos hasc
      (fun e _ => Nat.zero_le _) h

/-- Claim C6, witness: a concrete two-entry ascending tempo map with division
4, evaluated at ticks 0, 5 and 15. -/
theorem getTime_zero_and_monotone_witness :
    (0 : ℚ) < 4 ∧
    List.Pairwise (fun a b => a.tick < b.tick)
      [Tempo.mk 0 500000, Tempo.mk 10 250000] ∧
    (∀ e ∈ [Tempo.mk 0 500000, Tempo.mk 10 250000], 0 < e.mpqn) ∧
    getTime 4 [Tempo.mk 0 500000, Tempo.mk 10 250000] 0 = 0 ∧
    getTime 4 [Tempo.mk 0 500000, Tempo.mk 10 250000] 5 ≤
      getTime 4 [Tempo.mk 0 500000, Tempo.mk 10 250000] 15 := by
  refine ⟨by norm_num, by decide, by decide, ?_, ?_⟩
  · exact (getTime_zero_and_monotone 4 _ (by norm_num) (by decide) (by decide)).1
  · exact (getTime_zero_and_monotone 4 _ (by norm_num) (by decide)
      (by decide)).2 5 15 (by norm_num)

/-- Claim C7: with a single tempo entry of T µs/quarter at tick 0 and
division D, `getTime` is exactly `ticks * T / D / 1000000` (as rationals). -/
theorem getTime_constant_tempo_closed_form (T : ℕ) (D : ℚ) (n : ℕ) :
    getTime D [Tempo.mk 0 T] n = (T : ℚ) * n / D / 1000000 := by
  cases n with
  | zero => simp [getTime, getTimeGo]
  | succ k => simp [getTime, getTimeGo, nextStop]

/-- Claim C8: decoding the standard VLQ encodings of 0, 127, 128, 16383 and
16384 with `getVarVal` returns the original integers, and `getVarLen` reports
the encoded byte counts 1, 1, 2, 2, 3. -/
theorem vlq_round_trip :
    getVarVal [0x00] 0 = 0 ∧ getVarLen [0x00] 0 = 1 ∧
    getVarVal [0x7f] 0 = 127 ∧ getVarLen [0x7f] 0 = 1 ∧
    getVarVal [0x81, 0x00] 0 = 128 ∧ getVarLen [0x81, 0x00] 0 = 2 ∧
    getVarVal [0xff, 0x7f] 0 = 16383 ∧ getVarLen [0xff, 0x7f] 0 = 2 ∧
    getVarVal [0x81, 0x80, 0x00] 0 = 16384 ∧
    getVarLen [0x81, 0x80, 0x00] 0 = 3 := by
  decide

/-- Claim C9: `createBpmMap` equals the spec's filter — it always keeps the
first tempo-map entry and keeps a subsequent entry exactly when the absolute
difference between its BPM rounded to the threshold's decimal precision and
the last kept entry's BPM reaches the threshold; with threshold 0.5 and tempo
values 500000, 498753, 495868, 480000 µs/quarter (BPM 120.0, 120.3, 121.0,
125.0) the kept BPM values are 120, 121, 125. -/
theorem createBpmMap_keeps_iff_threshold :
    (∀ (D thr : ℚ) (tm : List Tempo),
        createBpmMap D thr tm = specBpmMap D thr tm) ∧
    (createBpmMap 480 (1/2)
        [Tempo.mk 0 500000, Tempo.mk 480 498753, Tempo.mk 960 495868,
         Tempo.mk 1440 480000]).map BPM.bpm = [120, 121, 125] := by
  refine ⟨createBpmMap_eq_specBpmMap, ?_⟩
  rw [createBpmMap, countDecimals_half]
  norm_num [createBpmMapGo, roundedBpm, round_eq, abs_of_nonneg]

/-- Claim C10: after any sequence of `addNote` calls, a velocity-0 event
(terminator) never carries `durTime` or `durBeats`: the scan requires a
truthy velocity on the matched note and starts at the second-newest entry,
so the just-appended terminator is skipped. -/
theorem runAddNotes_terminators_unresolved (calls : List NoteCall) :
    ∀ n ∈ runAddNotes calls, n.vel = 0 →
      n.durTime = none ∧ n.durBeats = none := by
  rw [runAddNotes]
  have main : ∀ (cs : List NoteCall) (acc : List Note),
      (∀ n ∈ acc, n.vel = 0 → n.durTime = none ∧ n.durBeats = none) →
      ∀ n ∈ cs.foldl
          (fun acc c => addNote acc c.time c.beats c.channel c.pitch c.vel) acc,
        n.vel = 0 → n.durTime = none ∧ n.durBeats = none := by
    intro cs
    induction cs with
    | nil => intro acc h; simpa using h
    | cons c cs ih =>
      intro acc h
      exact ih _ (addNote_offs_unresolved acc c.time c.beats c.channel c.pitch
        c.vel h)
  exact main calls [] (by simp)

/-- Claim C10, witness: a note-on followed by its terminator; the terminator
is in the resulting list, has velocity 0 and carries no duration. -/
theorem runAddNotes_terminators_unresolved_witness :
    Note.mk 1 1 0 60 0 none none ∈
      runAddNotes [NoteCall.mk 0 0 0 60 100, NoteCall.mk 1 1 0 60 0] ∧
    (Note.mk 1 1 0 60 0 none none).vel = 0 ∧
    (Note.mk 1 1 0 60 0 none none).durTime = none ∧
    (Note.mk 1 1 0 60 0 none none).durBeats = none := by
  refine ⟨by decide, rfl, ?_⟩
  exact runAddNotes_terminators_unresolved
    [NoteCall.mk 0 0 0 60 100, NoteCall.mk 1 1 0 60 0]
    (Note.mk 1 1 0 60 0 none none) (by decide) rfl

end MidiVis
